import Mathlib

/-!
Verification of the multi-calendar aggregator core: a shallow embedding of
the repository's date arithmetic (moment.js civil-calendar operations as used
by `RecurrenceUtils`), the recurrence expansion engine
(`RecurrenceUtils.generateRecurringEvents` / `getNextOccurrence`), the cache
layer (`CacheService`), and the aggregation/search/conflict paths of
`CalendarService` (`getEventsFromSources`, `searchEvents`,
`getEventConflicts`, `calculateEventOverlap`, `removeDuplicateEvents`).

Dates are modelled as civil (Gregorian) date-times: a year/month/day triple
plus a time-of-day in milliseconds.  This is the DST-free model of JavaScript
`Date` / moment.js arithmetic: `getTime()` differences and comparisons are
mirrored by `toTime` (milliseconds on a linear timeline, anchored at a fixed
epoch; sound because the embedded code only uses differences, equalities and
order comparisons of timestamps).
-/

/-- Milliseconds in one day. -/
def dayMs : ℕ := 86400000

/-- Gregorian leap-year condition, as implemented by JavaScript `Date`/moment. -/
def isLeap (y : ℕ) : Prop :=
  (y % 4 = 0 ∧ ¬ y % 100 = 0) ∨ y % 400 = 0

instance (y : ℕ) : Decidable (isLeap y) := by
  unfold isLeap; infer_instance

/-- Number of days in month `m` (1–12) of year `y`. -/
def daysInMonth (y m : ℕ) : ℕ :=
  if m = 2 then (if isLeap y then 29 else 28)
  else if m = 4 ∨ m = 6 ∨ m = 9 ∨ m = 11 then 30
  else 31

/-- A civil date-time: calendar fields plus time-of-day in milliseconds.
`month` is 1-based (1–12), `day` is 1-based. -/
structure DateTime where
  year : ℕ
  month : ℕ
  day : ℕ
  tod : ℕ
  deriving DecidableEq, Repr

/-- Serial number of the first day of month `m` of year `y` (a rata-die
style count via the March-anchored shifted-year formula). -/
def monthBase (y m : ℕ) : ℕ :=
  let ys := if m ≤ 2 then y - 1 else y
  let mp := (m + 9) % 12
  ys * 365 + ys / 4 - ys / 100 + ys / 400 + (153 * mp + 2) / 5 + 1

/-- Serial day number of a civil date (linear timeline of days). -/
def dayNumber (d : DateTime) : ℕ :=
  monthBase d.year d.month + d.day - 1

/-- Milliseconds-since-fixed-epoch view of a date-time; the model of
`Date.getTime()` up to a constant offset (only differences, equalities and
comparisons of `getTime` values occur in the embedded code). -/
def toTime (d : DateTime) : ℕ :=
  dayNumber d * dayMs + d.tod

/-- Well-formedness of a civil date-time: months 1–12, day within the month,
time-of-day within the day.  Year 0 is admitted from March onwards (which
closes the domain under stepping a few days backwards from early year 1),
while January/February require year ≥ 1 so that the shifted-year day-number
formula is exact. -/
def DateTime.wf (d : DateTime) : Prop :=
  1 ≤ d.month ∧ d.month ≤ 12 ∧ 1 ≤ d.day ∧ d.day ≤ daysInMonth d.year d.month ∧
    d.tod < dayMs ∧ (d.month ≤ 2 → 1 ≤ d.year)

instance (d : DateTime) : Decidable d.wf := by
  unfold DateTime.wf; infer_instance

/-- Step one civil day forward. -/
def succDay (d : DateTime) : DateTime :=
  if d.day < daysInMonth d.year d.month then ⟨d.year, d.month, d.day + 1, d.tod⟩
  else if d.month < 12 then ⟨d.year, d.month + 1, 1, d.tod⟩
  else ⟨d.year + 1, 1, 1, d.tod⟩

/-- Step one civil day backward. -/
def predDay (d : DateTime) : DateTime :=
  if 2 ≤ d.day then ⟨d.year, d.month, d.day - 1, d.tod⟩
  else if 2 ≤ d.month then ⟨d.year, d.month - 1, daysInMonth d.year (d.month - 1), d.tod⟩
  else ⟨d.year - 1, 12, 31, d.tod⟩

/-- Add `k` civil days (moment `add(k, 'days')`, DST-free). -/
def addDays (d : DateTime) : ℕ → DateTime
  | 0 => d
  | k + 1 => succDay (addDays d k)

/-- Subtract `k` civil days. -/
def subDays (d : DateTime) : ℕ → DateTime
  | 0 => d
  | k + 1 => predDay (subDays d k)

theorem daysInMonth_bounds (y m : ℕ) : 28 ≤ daysInMonth y m ∧ daysInMonth y m ≤ 31 := by
  unfold daysInMonth; split_ifs <;> omega

theorem monthBase_year (y : ℕ) : monthBase (y + 1) 1 = monthBase y 12 + 31 := by
  simp only [monthBase]; norm_num

set_option maxHeartbeats 1600000 in
theorem monthBase_succ (y m : ℕ) (h1 : 1 ≤ m) (h2 : m ≤ 11) (hy : m ≤ 2 → 1 ≤ y) :
    monthBase y (m + 1) = monthBase y m + daysInMonth y m := by
  interval_cases m
  · simp only [monthBase, daysInMonth]; norm_num
  · have hy1 : 1 ≤ y := hy (by omega)
    by_cases hl : isLeap y
    · rw [daysInMonth, if_pos rfl, if_pos hl]
      unfold isLeap at hl
      simp only [monthBase]; norm_num; omega
    · rw [daysInMonth, if_pos rfl, if_neg hl]
      unfold isLeap at hl
      simp only [monthBase]; norm_num; omega
  all_goals (simp only [monthBase, daysInMonth]; norm_num)

theorem tod_succDay (d : DateTime) : (succDay d).tod = d.tod := by
  unfold succDay; split_ifs <;> rfl

theorem tod_predDay (d : DateTime) : (predDay d).tod = d.tod := by
  unfold predDay; split_ifs <;> rfl

theorem dayNumber_succDay (d : DateTime) (h : d.wf) :
    dayNumber (succDay d) = dayNumber d + 1 := by
  obtain ⟨h1, h2, h3, h4, h5, h6⟩ := h
  unfold succDay
  split_ifs with hd hm
  · simp only [dayNumber]
    omega
  · have hstep := monthBase_succ d.year d.month h1 (by omega) h6
    simp only [dayNumber]
    omega
  · have h12 : d.month = 12 := by omega
    have hstep := monthBase_year d.year
    have hdim : daysInMonth d.year 12 = 31 := by simp [daysInMonth]
    rw [h12] at hd h4
    simp only [dayNumber, h12]
    omega

theorem wf_succDay (d : DateTime) (h : d.wf) : (succDay d).wf := by
  obtain ⟨h1, h2, h3, h4, h5, h6⟩ := h
  have hb1 := daysInMonth_bounds d.year (d.month + 1)
  have hb2 := daysInMonth_bounds (d.year + 1) 1
  unfold succDay
  split_ifs with hd hm <;> unfold DateTime.wf <;> simp only <;>
    refine ⟨by omega, by omega, by omega, by omega, by omega, ?_⟩ <;> intro hc <;> omega

/-- Day of week, 0 = Sunday … 6 = Saturday (moment `.day()` getter).
Calibrated so that 1970-01-01 is a Thursday (4) and 2025-01-06 a Monday (1). -/
def dow (d : DateTime) : ℕ :=
  (dayNumber d + 2) % 7

theorem addDays_spec (d : DateTime) (h : d.wf) (k : ℕ) :
    (addDays d k).wf ∧ dayNumber (addDays d k) = dayNumber d + k ∧ (addDays d k).tod = d.tod := by
  induction k with
  | zero => exact ⟨h, rfl, rfl⟩
  | succ n ih =>
    obtain ⟨hw, hn, ht⟩ := ih
    refine ⟨wf_succDay _ hw, ?_, ?_⟩
    · show dayNumber (succDay (addDays d n)) = _
      rw [dayNumber_succDay _ hw, hn]
      omega
    · show (succDay (addDays d n)).tod = _
      rw [tod_succDay, ht]

theorem predDay_spec (d : DateTime) (h : d.wf) (hgt : 1 < dayNumber d) :
    (predDay d).wf ∧ succDay (predDay d) = d := by
  obtain ⟨y, m, day, tod⟩ := d
  obtain ⟨h1, h2, h3, h4, h5, h6⟩ := h
  simp only at h1 h2 h3 h4 h5 h6
  unfold predDay
  simp only
  split_ifs with hd hm
  · -- not the first day of the month
    have hb := daysInMonth_bounds y m
    refine ⟨?_, ?_⟩
    · unfold DateTime.wf
      simp only
      exact ⟨h1, h2, by omega, by omega, h5, h6⟩
    unfold succDay
    simp only
    rw [if_pos (by omega)]
    simp only [DateTime.mk.injEq, true_and, and_true]
    omega
  · -- first day of a month other than January
    have hday : day = 1 := by omega
    have hb := daysInMonth_bounds y (m - 1)
    have hy : m - 1 ≤ 2 → 1 ≤ y := by
      intro hc
      rcases Nat.lt_or_ge m 3 with hm3 | hm3
      · exact h6 (by omega)
      · -- m = 3; if y = 0 then dayNumber = 1, contradicting hgt
        have hm3' : m = 3 := by omega
        by_contra hy0
        have hy0' : y = 0 := by omega
        subst hm3' hy0' hday
        have h0 : dayNumber ⟨0, 3, 1, tod⟩ = 1 := by
          norm_num [dayNumber, monthBase]
        omega
    refine ⟨?_, ?_⟩
    · unfold DateTime.wf
      simp only
      exact ⟨by omega, by omega, by omega, le_refl _, h5, hy⟩
    unfold succDay
    simp only
    rw [if_neg (by omega), if_pos (by omega)]
    simp only [DateTime.mk.injEq, true_and, and_true]
    omega
  · -- January 1st (year ≥ 1 by well-formedness)
    have hday : day = 1 := by omega
    have hm1 : m = 1 := by omega
    have hy1 : 1 ≤ y := h6 (by omega)
    have hdim : daysInMonth (y - 1) 12 = 31 := by simp [daysInMonth]
    refine ⟨?_, ?_⟩
    · unfold DateTime.wf
      simp only
      exact ⟨by omega, by omega, by omega, by omega, h5, by omega⟩
    unfold succDay
    simp only
    rw [if_neg (by omega), if_neg (by omega)]
    simp only [DateTime.mk.injEq, true_and, and_true]
    omega

theorem predDay_dayNumber (d : DateTime) (h : d.wf) (hgt : 1 < dayNumber d) :
    (predDay d).wf ∧ dayNumber (predDay d) + 1 = dayNumber d ∧ (predDay d).tod = d.tod := by
  obtain ⟨hw, hsucc⟩ := predDay_spec d h hgt
  refine ⟨hw, ?_, tod_predDay d⟩
  have := dayNumber_succDay (predDay d) hw
  rw [hsucc] at this
  omega

theorem subDays_spec (d : DateTime) (h : d.wf) (k : ℕ) (hk : k < dayNumber d) :
    (subDays d k).wf ∧ dayNumber (subDays d k) = dayNumber d - k ∧ (subDays d k).tod = d.tod := by
  induction k with
  | zero => exact ⟨h, rfl, rfl⟩
  | succ n ih =>
    obtain ⟨hw, hn, ht⟩ := ih (by omega)
    have hgt : 1 < dayNumber (subDays d n) := by omega
    obtain ⟨hw', hn', ht'⟩ := predDay_dayNumber _ hw hgt
    refine ⟨hw', ?_, ?_⟩
    · show dayNumber (predDay (subDays d n)) = _
      omega
    · show (predDay (subDays d n)).tod = _
      rw [ht', ht]

/-- Linear month index (year, month) ↦ 12·year + (month − 1). -/
def monthIdx (d : DateTime) : ℕ :=
  d.year * 12 + (d.month - 1)

/-- `monthBase` viewed along the linear month index. -/
def mbIdx (k : ℕ) : ℕ :=
  monthBase (k / 12) (k % 12 + 1)

/-- `daysInMonth` viewed along the linear month index. -/
def dimIdx (k : ℕ) : ℕ :=
  daysInMonth (k / 12) (k % 12 + 1)

theorem mbIdx_succ (k : ℕ) (hk : 2 ≤ k) : mbIdx (k + 1) = mbIdx k + dimIdx k := by
  rcases Nat.lt_or_ge (k % 12) 11 with hlt | hge
  · have e1 : (k + 1) / 12 = k / 12 := by omega
    have e2 : (k + 1) % 12 = k % 12 + 1 := by omega
    rw [mbIdx, mbIdx, dimIdx, e1, e2]
    exact monthBase_succ (k / 12) (k % 12 + 1) (by omega) (by omega) (by omega)
  · have h11 : k % 12 = 11 := by omega
    have e1 : (k + 1) / 12 = k / 12 + 1 := by omega
    have e2 : (k + 1) % 12 = 0 := by omega
    have hdim : daysInMonth (k / 12) 12 = 31 := by simp [daysInMonth]
    rw [mbIdx, mbIdx, dimIdx, e1, e2, h11]
    simpa [hdim] using monthBase_year (k / 12)

theorem mbIdx_mono (j k : ℕ) (hj : 2 ≤ j) (hjk : j < k) :
    mbIdx j + dimIdx j ≤ mbIdx k := by
  induction k with
  | zero => omega
  | succ n ih =>
    rcases Nat.lt_or_ge j n with hlt | hge
    · have := ih hlt
      have hstep := mbIdx_succ n (by omega)
      omega
    · have hjn : j = n := by omega
      subst hjn
      rw [mbIdx_succ j hj]

theorem mbIdx_monthIdx (d : DateTime) (h1 : 1 ≤ d.month) (h2 : d.month ≤ 12) :
    mbIdx (monthIdx d) = monthBase d.year d.month ∧
      dimIdx (monthIdx d) = daysInMonth d.year d.month := by
  have e1 : (d.year * 12 + (d.month - 1)) / 12 = d.year := by omega
  have e2 : (d.year * 12 + (d.month - 1)) % 12 + 1 = d.month := by omega
  constructor
  · rw [mbIdx, monthIdx, e1, e2]
  · rw [dimIdx, monthIdx, e1, e2]

theorem monthIdx_ge (d : DateTime) (h : d.wf) : 2 ≤ monthIdx d := by
  obtain ⟨h1, h2, h3, h4, h5, h6⟩ := h
  have h6' : 3 ≤ d.month ∨ 1 ≤ d.year := by
    rcases Nat.lt_or_ge d.month 3 with hc | hc
    · exact Or.inr (h6 (by omega))
    · exact Or.inl hc
  unfold monthIdx
  omega

theorem dayNumber_lt_of_monthIdx_lt (d e : DateTime) (hd : d.wf) (he : e.wf)
    (hlt : monthIdx d < monthIdx e) : dayNumber d < dayNumber e := by
  obtain ⟨hd1, hd2, hd3, hd4, hd5, hd6⟩ := hd
  obtain ⟨he1, he2, he3, he4, he5, he6⟩ := he
  obtain ⟨hbd, hdd⟩ := mbIdx_monthIdx d hd1 hd2
  obtain ⟨hbe, _⟩ := mbIdx_monthIdx e he1 he2
  have hmono := mbIdx_mono (monthIdx d) (monthIdx e)
    (monthIdx_ge d ⟨hd1, hd2, hd3, hd4, hd5, hd6⟩) hlt
  unfold dayNumber
  omega

theorem dayNumber_lt_iff (d e : DateTime) (hd : d.wf) (he : e.wf) :
    dayNumber d < dayNumber e ↔
      (monthIdx d < monthIdx e ∨ (monthIdx d = monthIdx e ∧ d.day < e.day)) := by
  have hyd := hd
  have hye := he
  obtain ⟨hd1, hd2, hd3, hd4, hd5, hd6⟩ := hd
  obtain ⟨he1, he2, he3, he4, he5, he6⟩ := he
  constructor
  · intro hlt
    rcases Nat.lt_trichotomy (monthIdx d) (monthIdx e) with hc | hc | hc
    · exact Or.inl hc
    · refine Or.inr ⟨hc, ?_⟩
      have heq : d.year = e.year ∧ d.month = e.month := by
        unfold monthIdx at hc; omega
      unfold dayNumber at hlt
      rw [heq.1, heq.2] at hlt
      omega
    · have := dayNumber_lt_of_monthIdx_lt e d hye hyd hc
      omega
  · intro hc
    rcases hc with hc | ⟨hc, hday⟩
    · exact dayNumber_lt_of_monthIdx_lt d e hyd hye hc
    · have heq : d.year = e.year ∧ d.month = e.month := by
        unfold monthIdx at hc; omega
      unfold dayNumber
      rw [heq.1, heq.2]
      omega

theorem dayNumber_inj (d e : DateTime) (hd : d.wf) (he : e.wf)
    (hn : dayNumber d = dayNumber e) (ht : d.tod = e.tod) : d = e := by
  have h1 := dayNumber_lt_iff d e hd he
  have h2 := dayNumber_lt_iff e d he hd
  have hmi : monthIdx d = monthIdx e ∧ d.day = e.day := by omega
  obtain ⟨hd1, hd2, _, _, _, _⟩ := hd
  obtain ⟨he1, he2, _, _, _, _⟩ := he
  have hym : d.year = e.year ∧ d.month = e.month := by
    have := hmi.1; unfold monthIdx at this; omega
  obtain ⟨y, m, day, tod⟩ := d
  obtain ⟨y', m', day', tod'⟩ := e
  simp only at hym ht hmi
  simp [DateTime.mk.injEq]
  exact ⟨hym.1, hym.2, hmi.2, ht⟩

/-- Moment `add(k, 'weeks')`. -/
def addWeeks (d : DateTime) (k : ℕ) : DateTime :=
  addDays d (7 * k)

/-- Moment `.day(n)` setter: move to day-of-week `n` within the current
Sunday-based week (forward when `n` is at or after the current weekday,
backward otherwise). -/
def setDow (d : DateTime) (n : ℕ) : DateTime :=
  if dow d ≤ n then addDays d (n - dow d) else subDays d (dow d - n)

/-- Moment `add(k, 'months')`: advance the month index, clamping the
day-of-month to the target month's length. -/
def addMonths (d : DateTime) (k : ℕ) : DateTime :=
  let t := d.year * 12 + (d.month - 1) + k
  ⟨t / 12, t % 12 + 1, min d.day (daysInMonth (t / 12) (t % 12 + 1)), d.tod⟩

/-- Moment `add(k, 'years')`: advance the year, clamping Feb 29 to Feb 28
in non-leap target years. -/
def addYears (d : DateTime) (k : ℕ) : DateTime :=
  ⟨d.year + k, d.month, min d.day (daysInMonth (d.year + k) d.month), d.tod⟩

/-- Moment `.month(n)` setter (`n` is 0-based), clamping the day-of-month. -/
def setMonth (d : DateTime) (n : ℕ) : DateTime :=
  ⟨d.year, n + 1, min d.day (daysInMonth d.year (n + 1)), d.tod⟩

/-- Moment `.date(n)` setter with JavaScript overflow semantics: day `n`
counted from the first of the current month, bubbling into neighbouring
months when out of range (`date(0)` is the last day of the previous month). -/
def setDate (d : DateTime) (n : ℕ) : DateTime :=
  if 1 ≤ n then addDays ⟨d.year, d.month, 1, d.tod⟩ (n - 1)
  else predDay ⟨d.year, d.month, 1, d.tod⟩

/-- Shift a date-time forward by `k` milliseconds
(the model of `new Date(d.getTime() + k)`). -/
def addMillis (d : DateTime) (k : ℕ) : DateTime :=
  let t := d.tod + k
  let a := addDays d (t / dayMs)
  ⟨a.year, a.month, a.day, t % dayMs⟩

/-- Moment `isBefore`: strict comparison of the underlying timestamps. -/
def isBefore (a b : DateTime) : Bool :=
  decide (toTime a < toTime b)

/-- Canonical recurrence type discriminator
(`IRecurrencePattern.type` in `IEventModels.ts`). -/
inductive RecurrenceType
  | daily
  | weekly
  | monthly
  | yearly
  | weekdays
  | custom
  deriving DecidableEq, Repr

/-- Canonical recurrence pattern (`IRecurrencePattern` in `IEventModels.ts`).
Numeric optional fields model TypeScript `number | undefined`; the embedded
code tests them with JavaScript truthiness (absent or zero ⇒ falsy). -/
structure IRecurrencePattern where
  type : RecurrenceType
  interval : ℕ
  daysOfWeek : Option (List ℕ) := none
  dayOfMonth : Option ℕ := none
  weekOfMonth : Option ℕ := none
  monthOfYear : Option ℕ := none
  endDate : Option DateTime := none
  occurrences : Option ℕ := none
  firstDayOfWeek : Option ℕ := none
  deriving DecidableEq, Repr

/-- JavaScript truthiness of an optional number: present and non-zero. -/
def truthyNat : Option ℕ → Bool
  | some n => n != 0
  | none => false

/-- Calendar source backend kind (`CalendarSourceType`). -/
inductive CalendarSourceType
  | sharePoint
  | exchange
  deriving DecidableEq, Repr

/-- Event attendee (`IEventAttendee`), reduced to its identifying fields. -/
structure IEventAttendee where
  name : String
  email : String
  deriving DecidableEq, Repr

/-- Calendar event (`ICalendarEvent` in `ICalendarModels.ts`). -/
structure ICalendarEvent where
  id : String
  title : String
  description : String
  start : DateTime
  «end» : DateTime
  location : Option String := none
  category : Option String := none
  isAllDay : Bool
  isRecurring : Bool
  calendarId : String
  calendarTitle : String
  calendarType : CalendarSourceType
  organizer : String
  created : DateTime
  modified : DateTime
  webUrl : String
  color : String
  importance : Option String := none
  sensitivity : Option String := none
  showAs : Option String := none
  attendees : Option (List IEventAttendee) := none
  attachments : Option (List String) := none
  tags : Option (List String) := none
  masterSeriesId : Option String := none
  isException : Option Bool := none
  deriving DecidableEq, Repr

/-- `[...].sort((a, b) => a - b)` on a number list: ascending numeric sort. -/
def sortedNats (l : List ℕ) : List ℕ :=
  List.insertionSort (· ≤ ·) l

/-- The `weekdays` do/while loop body of `getNextOccurrence`: keep stepping
one day while on Saturday/Sunday.  The fuel (7 at call sites) strictly
bounds the loop; two skips always suffice since weekends are two days long. -/
def weekdaysLoop : ℕ → DateTime → DateTime
  | 0, d => d
  | fuel + 1, d => if dow d = 0 ∨ dow d = 6 then weekdaysLoop fuel (succDay d) else d

/-- `RecurrenceUtils.getNextOccurrence` (RecurrenceUtils.ts lines 208–279).
The `baseDate` parameter of the TypeScript function is unused there and
omitted. -/
def getNextOccurrence (currentDate : DateTime) (pattern : IRecurrencePattern) : DateTime :=
  match pattern.type with
  | .daily => addDays currentDate pattern.interval
  | .weekly =>
    match pattern.daysOfWeek with
    | some ds =>
      if 0 < ds.length then
        let currentDayOfWeek := dow currentDate
        let sortedDays := sortedNats ds
        match sortedDays.find? (fun day => decide (currentDayOfWeek < day)) with
        | some nextDay => setDow currentDate nextDay
        | none => setDow (addWeeks currentDate pattern.interval) (sortedDays.headD 0)
      else addWeeks currentDate pattern.interval
    | none => addWeeks currentDate pattern.interval
  | .monthly =>
    if truthyNat pattern.dayOfMonth then
      let dom := pattern.dayOfMonth.getD 0
      let next := setDate (addMonths currentDate pattern.interval) dom
      if next.day ≠ dom then setDate next 0 else next
    else addMonths currentDate pattern.interval
  | .yearly =>
    let n1 := addYears currentDate pattern.interval
    let n2 := if truthyNat pattern.monthOfYear
      then setMonth n1 (pattern.monthOfYear.getD 0 - 1) else n1
    if truthyNat pattern.dayOfMonth then setDate n2 (pattern.dayOfMonth.getD 0) else n2
  | .weekdays => weekdaysLoop 7 (succDay currentDate)
  | .custom => addDays currentDate pattern.interval

/-- One synthesized occurrence of `generateRecurringEvents` (lines 188–193):
spread of the base event with fresh `id`, `start` and `end`. -/
def mkRecurringInstance (baseEvent : ICalendarEvent) (cur : DateTime)
    (count duration : ℕ) : ICalendarEvent :=
  { baseEvent with
      id := baseEvent.id ++ "_recur_" ++ toString count
      start := cur
      «end» := addMillis cur duration }

/-- The `while` loop of `generateRecurringEvents` (lines 181–200), embedded
with fuel.  Call sites pass `maxOccurrences` as fuel together with
`count = 0`, so the fuel never runs out before the `count < maxOccurrences`
guard fails (fuel + count = maxOccurrences is invariant). -/
def genLoop (baseEvent : ICalendarEvent) (pattern : IRecurrencePattern) (endDate : DateTime)
    (maxOccurrences duration : ℕ) : ℕ → DateTime → ℕ → List ICalendarEvent
  | 0, _, _ => []
  | fuel + 1, cur, count =>
    if isBefore cur endDate && decide (count < maxOccurrences) &&
        (match pattern.endDate with | some pe => isBefore cur pe | none => true) &&
        (!truthyNat pattern.occurrences || decide (count < pattern.occurrences.getD 0)) then
      mkRecurringInstance baseEvent cur count duration ::
        genLoop baseEvent pattern endDate maxOccurrences duration fuel
          (getNextOccurrence cur pattern) (count + 1)
    else []

/-- `RecurrenceUtils.generateRecurringEvents` (RecurrenceUtils.ts lines
161–203).  `duration` is `end.getTime() − start.getTime()` of the base event
(non-negative under the documented `start < end` event invariant). -/
def generateRecurringEvents (baseEvent : ICalendarEvent) (pattern : IRecurrencePattern)
    (startDate endDate : DateTime) (maxOccurrences : ℕ) : List ICalendarEvent :=
  let eventDuration := toTime baseEvent.«end» - toTime baseEvent.start
  let cur0 := if isBefore baseEvent.start startDate
    then getNextOccurrence startDate pattern else baseEvent.start
  genLoop baseEvent pattern endDate maxOccurrences eventDuration maxOccurrences cur0 0

theorem monthBase_pos (y m : ℕ) : 1 ≤ monthBase y m := by
  simp only [monthBase]
  split_ifs <;> omega

theorem dayNumber_pos (d : DateTime) (h : d.wf) : 1 ≤ dayNumber d := by
  obtain ⟨h1, h2, h3, h4, h5, h6⟩ := h
  have := monthBase_pos d.year d.month
  unfold dayNumber
  omega

theorem dow_lt (d : DateTime) : dow d < 7 :=
  Nat.mod_lt _ (by norm_num)

theorem mbIdx_le (j k : ℕ) (hj : 2 ≤ j) (hjk : j ≤ k) : mbIdx j ≤ mbIdx k := by
  rcases Nat.eq_or_lt_of_le hjk with he | hlt
  · rw [he]
  · have := mbIdx_mono j k hj hlt
    omega

theorem addDays_add (d : DateTime) (a b : ℕ) :
    addDays d (a + b) = addDays (addDays d a) b := by
  induction b with
  | zero => rfl
  | succ n ih =>
    show succDay (addDays d (a + n)) = succDay (addDays (addDays d a) n)
    rw [ih]

theorem succDay_day_le (d : DateTime) : (succDay d).day ≤ d.day + 1 := by
  unfold succDay
  split_ifs <;> simp

theorem addDays_day_le (d : DateTime) (j : ℕ) : (addDays d j).day ≤ d.day + j := by
  induction j with
  | zero => exact Nat.le_refl _
  | succ n ih =>
    have := succDay_day_le (addDays d n)
    show (succDay (addDays d n)).day ≤ _
    omega

theorem dayNumber_mk_one (y m t : ℕ) : dayNumber ⟨y, m, 1, t⟩ = monthBase y m := by
  simp only [dayNumber]
  omega

theorem wf_mk_one (d : DateTime) (h : d.wf) : DateTime.wf ⟨d.year, d.month, 1, d.tod⟩ := by
  obtain ⟨h1, h2, h3, h4, h5, h6⟩ := h
  have hb := daysInMonth_bounds d.year d.month
  unfold DateTime.wf
  simp only
  exact ⟨h1, h2, le_refl _, by omega, h5, h6⟩

theorem setDate_spec (d : DateTime) (h : d.wf) (n : ℕ) (hn : 1 ≤ n) :
    (setDate d n).wf ∧ dayNumber (setDate d n) = monthBase d.year d.month + n - 1 ∧
      (setDate d n).day ≤ n ∧ (setDate d n).tod = d.tod := by
  have hw1 := wf_mk_one d h
  unfold setDate
  rw [if_pos hn]
  obtain ⟨hw, hdn, ht⟩ := addDays_spec ⟨d.year, d.month, 1, d.tod⟩ hw1 (n - 1)
  have hday := addDays_day_le (⟨d.year, d.month, 1, d.tod⟩ : DateTime) (n - 1)
  simp only at hday
  rw [dayNumber_mk_one] at hdn
  exact ⟨hw, by omega, by omega, ht⟩

theorem setDate_zero (d : DateTime) (h : d.wf) (hgt : 1 < monthBase d.year d.month) :
    (setDate d 0).wf ∧ dayNumber (setDate d 0) = monthBase d.year d.month - 1 ∧
      (setDate d 0).tod = d.tod := by
  have hw1 := wf_mk_one d h
  unfold setDate
  rw [if_neg (by omega)]
  have hd1 : 1 < dayNumber ⟨d.year, d.month, 1, d.tod⟩ := by
    rw [dayNumber_mk_one]; exact hgt
  obtain ⟨hw, hdn, ht⟩ := predDay_dayNumber _ hw1 hd1
  rw [dayNumber_mk_one] at hdn
  exact ⟨hw, by omega, ht⟩

theorem addMonths_spec (d : DateTime) (h : d.wf) (k : ℕ) :
    (addMonths d k).wf ∧ monthIdx (addMonths d k) = monthIdx d + k ∧
      1 ≤ (addMonths d k).day ∧ (addMonths d k).tod = d.tod := by
  have hmi := monthIdx_ge d h
  obtain ⟨h1, h2, h3, h4, h5, h6⟩ := h
  unfold monthIdx at hmi
  have hb := daysInMonth_bounds ((d.year * 12 + (d.month - 1) + k) / 12)
    ((d.year * 12 + (d.month - 1) + k) % 12 + 1)
  refine ⟨?_, ?_, ?_, ?_⟩
  · unfold DateTime.wf addMonths
    simp only
    refine ⟨by omega, by omega, by omega, by omega, h5, ?_⟩
    intro hc
    omega
  · unfold monthIdx addMonths
    simp only
    omega
  · unfold addMonths
    simp only
    omega
  · unfold addMonths
    simp only

theorem addYears_spec (d : DateTime) (h : d.wf) (k : ℕ) :
    (addYears d k).wf ∧ monthIdx (addYears d k) = monthIdx d + 12 * k ∧
      1 ≤ (addYears d k).day ∧ (addYears d k).tod = d.tod := by
  obtain ⟨h1, h2, h3, h4, h5, h6⟩ := h
  have hb := daysInMonth_bounds (d.year + k) d.month
  refine ⟨?_, ?_, ?_, ?_⟩
  · unfold DateTime.wf addYears
    simp only
    refine ⟨h1, h2, by omega, by omega, h5, ?_⟩
    intro hc
    have := h6 hc
    omega
  · unfold monthIdx addYears
    simp only
    omega
  · unfold addYears
    simp only
    omega
  · unfold addYears
    simp only

theorem setMonth_spec (d : DateTime) (h : d.wf) (n : ℕ) (hn : n ≤ 11) (hy : 1 ≤ d.year) :
    (setMonth d n).wf ∧ monthIdx (setMonth d n) = d.year * 12 + n ∧
      1 ≤ (setMonth d n).day ∧ (setMonth d n).tod = d.tod := by
  obtain ⟨h1, h2, h3, h4, h5, h6⟩ := h
  have hb := daysInMonth_bounds d.year (n + 1)
  refine ⟨?_, ?_, ?_, ?_⟩
  · unfold DateTime.wf setMonth
    simp only
    exact ⟨by omega, by omega, by omega, by omega, h5, fun _ => hy⟩
  · unfold monthIdx setMonth
    simp only
    omega
  · unfold setMonth
    simp only
    omega
  · unfold setMonth
    simp only

theorem addMillis_spec (d : DateTime) (h : d.wf) (k : ℕ) :
    (addMillis d k).wf ∧ toTime (addMillis d k) = toTime d + k := by
  obtain ⟨hw, hdn, ht⟩ := addDays_spec d h ((d.tod + k) / dayMs)
  obtain ⟨w1, w2, w3, w4, w5, w6⟩ := hw
  unfold addMillis
  simp only
  constructor
  · refine ⟨w1, w2, w3, w4, ?_, w6⟩
    exact Nat.mod_lt _ (by norm_num [dayMs])
  · have hproj : dayNumber ⟨(addDays d ((d.tod + k) / dayMs)).year,
        (addDays d ((d.tod + k) / dayMs)).month, (addDays d ((d.tod + k) / dayMs)).day,
        (d.tod + k) % dayMs⟩ = dayNumber (addDays d ((d.tod + k) / dayMs)) := rfl
    unfold toTime
    rw [hproj, hdn]
    have hmod := Nat.div_add_mod (d.tod + k) dayMs
    simp only [dayMs] at hmod ⊢
    omega

/-- Validity of a canonical pattern per the spec's data model: interval ≥ 1,
days-of-week within 0–6, day-of-month at most 31, month-of-year at most 12. -/
def validPattern (p : IRecurrencePattern) : Bool :=
  decide (1 ≤ p.interval) && (p.daysOfWeek.getD []).all (fun x => decide (x ≤ 6)) &&
    p.dayOfMonth.all (fun n => decide (n ≤ 31)) && p.monthOfYear.all (fun n => decide (n ≤ 12))

theorem validPattern_interval (p : IRecurrencePattern) (hp : validPattern p = true) :
    1 ≤ p.interval := by
  simp only [validPattern, Bool.and_eq_true, decide_eq_true_eq] at hp
  exact hp.1.1.1

theorem validPattern_dow (p : IRecurrencePattern) (hp : validPattern p = true) :
    ∀ x ∈ p.daysOfWeek.getD [], x ≤ 6 := by
  simp only [validPattern, Bool.and_eq_true, List.all_eq_true, decide_eq_true_eq] at hp
  exact hp.1.1.2

theorem validPattern_dom (p : IRecurrencePattern) (hp : validPattern p = true)
    (n : ℕ) (hn : p.dayOfMonth = some n) : n ≤ 31 := by
  simp only [validPattern, Bool.and_eq_true, decide_eq_true_eq] at hp
  have := hp.1.2
  rw [hn] at this
  simpa using this

theorem validPattern_moy (p : IRecurrencePattern) (hp : validPattern p = true)
    (n : ℕ) (hn : p.monthOfYear = some n) : n ≤ 12 := by
  simp only [validPattern, Bool.and_eq_true, decide_eq_true_eq] at hp
  have := hp.2
  rw [hn] at this
  simpa using this

theorem dayNumber_lt_monthBase (d e : DateTime) (hd : d.wf)
    (h1e : 1 ≤ e.month) (h2e : e.month ≤ 12) (hm : monthIdx d < monthIdx e) :
    dayNumber d < monthBase e.year e.month := by
  have hge := monthIdx_ge d hd
  obtain ⟨hbd, hdd⟩ := mbIdx_monthIdx d hd.1 hd.2.1
  obtain ⟨hbe, _⟩ := mbIdx_monthIdx e h1e h2e
  have hsucc := mbIdx_succ (monthIdx d) hge
  have hle := mbIdx_le (monthIdx d + 1) (monthIdx e) (by omega) (by omega)
  have hpos := monthBase_pos e.year e.month
  obtain ⟨hd1, hd2, hd3, hd4, hd5, hd6⟩ := hd
  unfold dayNumber
  omega

theorem weekdaysLoop_spec (fuel : ℕ) (x : DateTime) (h : x.wf) :
    (weekdaysLoop fuel x).wf ∧ dayNumber x ≤ dayNumber (weekdaysLoop fuel x) := by
  induction fuel generalizing x with
  | zero => exact ⟨h, le_refl _⟩
  | succ n ih =>
    unfold weekdaysLoop
    split_ifs with hw
    · have hs := wf_succDay x h
      have hdn := dayNumber_succDay x h
      obtain ⟨ih1, ih2⟩ := ih (succDay x) hs
      exact ⟨ih1, by omega⟩
    · exact ⟨h, le_refl _⟩

theorem toTime_lt_mono (a b : DateTime) (ha : a.tod < dayMs)
    (hdn : dayNumber a < dayNumber b) : toTime a < toTime b := by
  unfold toTime dayMs at *
  omega

theorem isBefore_iff (a b : DateTime) : isBefore a b = true ↔ toTime a < toTime b := by
  simp [isBefore]

set_option maxHeartbeats 800000 in
theorem getNextOccurrence_spec (d : DateTime) (p : IRecurrencePattern)
    (hd : d.wf) (hp : validPattern p = true) :
    (getNextOccurrence d p).wf ∧ dayNumber d < dayNumber (getNextOccurrence d p) := by
  have hint := validPattern_interval p hp
  unfold getNextOccurrence
  cases htype : p.type
  case daily =>
    simp only
    obtain ⟨hw, hdn, _⟩ := addDays_spec d hd p.interval
    exact ⟨hw, by omega⟩
  case custom =>
    simp only
    obtain ⟨hw, hdn, _⟩ := addDays_spec d hd p.interval
    exact ⟨hw, by omega⟩
  case weekdays =>
    simp only
    have hs := wf_succDay d hd
    have hdn := dayNumber_succDay d hd
    obtain ⟨hw, hge⟩ := weekdaysLoop_spec 7 (succDay d) hs
    exact ⟨hw, by omega⟩
  case weekly =>
    simp only
    have hdow := validPattern_dow p hp
    cases hds : p.daysOfWeek with
    | none =>
      simp only
      obtain ⟨hw, hdn, _⟩ := addDays_spec d hd (7 * p.interval)
      unfold addWeeks
      exact ⟨hw, by omega⟩
    | some ds =>
      rw [hds] at hdow
      simp only [Option.getD_some] at hdow
      simp only
      by_cases hlen : 0 < ds.length
      · rw [if_pos hlen]
        cases hfind : (sortedNats ds).find? (fun day => decide (dow d < day)) with
        | some nextDay =>
          simp only
          have hlt : dow d < nextDay := by
            have := List.find?_some hfind
            simpa using this
          have hmem : nextDay ∈ ds := by
            have hmem' := List.mem_of_find?_eq_some hfind
            unfold sortedNats at hmem'
            exact (List.mem_insertionSort _).mp hmem'
          have hle6 : nextDay ≤ 6 := hdow _ hmem
          unfold setDow
          rw [if_pos (by omega)]
          obtain ⟨hw, hdn, _⟩ := addDays_spec d hd (nextDay - dow d)
          exact ⟨hw, by omega⟩
        | none =>
          simp only
          have hwx : (addWeeks d p.interval).wf ∧
              dayNumber (addWeeks d p.interval) = dayNumber d + 7 * p.interval := by
            obtain ⟨hw, hdn, _⟩ := addDays_spec d hd (7 * p.interval)
            unfold addWeeks
            exact ⟨hw, hdn⟩
          obtain ⟨hxw, hxdn⟩ := hwx
          have hs0 : (sortedNats ds).headD 0 ≤ 6 := by
            cases hsd : sortedNats ds with
            | nil => simp
            | cons a t =>
              simp only [List.headD]
              apply hdow
              have ha : a ∈ sortedNats ds := by
                rw [hsd]
                exact List.mem_cons_self a t
              unfold sortedNats at ha
              exact (List.mem_insertionSort _).mp ha
          unfold setDow
          split_ifs with hcmp
          · obtain ⟨hw, hdn, _⟩ :=
              addDays_spec (addWeeks d p.interval) hxw ((sortedNats ds).headD 0 - dow (addWeeks d p.interval))
            exact ⟨hw, by omega⟩
          · have hdlt := dow_lt (addWeeks d p.interval)
            have hpo := dayNumber_pos d hd
            have hk : dow (addWeeks d p.interval) - (sortedNats ds).headD 0 <
                dayNumber (addWeeks d p.interval) := by omega
            obtain ⟨hw, hdn, _⟩ :=
              subDays_spec (addWeeks d p.interval) hxw
                (dow (addWeeks d p.interval) - (sortedNats ds).headD 0) hk
            exact ⟨hw, by omega⟩
      · rw [if_neg hlen]
        obtain ⟨hw, hdn, _⟩ := addDays_spec d hd (7 * p.interval)
        unfold addWeeks
        exact ⟨hw, by omega⟩
  case monthly =>
    simp only
    obtain ⟨haw, hamidx, haday, _⟩ := addMonths_spec d hd p.interval
    by_cases htr : truthyNat p.dayOfMonth = true
    · rw [if_pos htr]
      obtain ⟨n, hn, hnz⟩ : ∃ n, p.dayOfMonth = some n ∧ n ≠ 0 := by
        cases hdm : p.dayOfMonth with
        | none => rw [hdm] at htr; simp [truthyNat] at htr
        | some m =>
          rw [hdm] at htr
          simp only [truthyNat, ne_eq, bne_iff_ne] at htr
          exact ⟨m, rfl, htr⟩
      have hdom1 : 1 ≤ p.dayOfMonth.getD 0 := by rw [hn]; simpa using Nat.one_le_iff_ne_zero.mpr hnz
      obtain ⟨hnw, hndn, hnday, _⟩ :=
        setDate_spec (addMonths d p.interval) haw (p.dayOfMonth.getD 0) hdom1
      have hMB : dayNumber d < monthBase (addMonths d p.interval).year (addMonths d p.interval).month :=
        dayNumber_lt_monthBase d (addMonths d p.interval) hd haw.1 haw.2.1 (by omega)
      split_ifs with hne
      · -- short-month overflow: `date(0)` clamps to the last day of the intended month
        have hdefn : dayNumber (setDate (addMonths d p.interval) (p.dayOfMonth.getD 0)) =
            monthBase (setDate (addMonths d p.interval) (p.dayOfMonth.getD 0)).year
              (setDate (addMonths d p.interval) (p.dayOfMonth.getD 0)).month +
              (setDate (addMonths d p.interval) (p.dayOfMonth.getD 0)).day - 1 := rfl
        have hday1 : 1 ≤ (setDate (addMonths d p.interval) (p.dayOfMonth.getD 0)).day :=
          hnw.2.2.1
        have hposM := monthBase_pos (addMonths d p.interval).year (addMonths d p.interval).month
        obtain ⟨hzw, hzdn, _⟩ :=
          setDate_zero (setDate (addMonths d p.interval) (p.dayOfMonth.getD 0)) hnw (by omega)
        exact ⟨hzw, by omega⟩
      · exact ⟨hnw, by omega⟩
    · rw [if_neg htr]
      exact ⟨haw, dayNumber_lt_of_monthIdx_lt d _ hd haw (by omega)⟩
  case yearly =>
    simp only
    obtain ⟨h1w, h1midx, h1day, _⟩ := addYears_spec d hd p.interval
    have hy1 : 1 ≤ (addYears d p.interval).year := by
      have : (addYears d p.interval).year = d.year + p.interval := rfl
      omega
    have hmain : ∀ n2 : DateTime, n2.wf → monthIdx d < monthIdx n2 →
        (if truthyNat p.dayOfMonth = true then setDate n2 (p.dayOfMonth.getD 0) else n2).wf ∧
          dayNumber d <
            dayNumber (if truthyNat p.dayOfMonth = true then setDate n2 (p.dayOfMonth.getD 0) else n2) := by
      intro n2 hn2w hn2m
      have hMB : dayNumber d < monthBase n2.year n2.month :=
        dayNumber_lt_monthBase d n2 hd hn2w.1 hn2w.2.1 hn2m
      split_ifs with htr
      · obtain ⟨m, hm, hmz⟩ : ∃ m, p.dayOfMonth = some m ∧ m ≠ 0 := by
          cases hdm : p.dayOfMonth with
          | none => rw [hdm] at htr; simp [truthyNat] at htr
          | some m =>
            rw [hdm] at htr
            simp only [truthyNat, ne_eq, bne_iff_ne] at htr
            exact ⟨m, rfl, htr⟩
        have hdom1 : 1 ≤ p.dayOfMonth.getD 0 := by
          rw [hm]; simpa using Nat.one_le_iff_ne_zero.mpr hmz
        obtain ⟨hw, hdn, _, _⟩ := setDate_spec n2 hn2w (p.dayOfMonth.getD 0) hdom1
        exact ⟨hw, by omega⟩
      · have hdefn : dayNumber n2 = monthBase n2.year n2.month + n2.day - 1 := rfl
        have hday1 : 1 ≤ n2.day := hn2w.2.2.1
        exact ⟨hn2w, by omega⟩
    by_cases hmoy : truthyNat p.monthOfYear = true
    · rw [if_pos hmoy]
      obtain ⟨m, hm, hmz⟩ : ∃ m, p.monthOfYear = some m ∧ m ≠ 0 := by
        cases hmo : p.monthOfYear with
        | none => rw [hmo] at hmoy; simp [truthyNat] at hmoy
        | some m =>
          rw [hmo] at hmoy
          simp only [truthyNat, ne_eq, bne_iff_ne] at hmoy
          exact ⟨m, rfl, hmoy⟩
      have hm12 := validPattern_moy p hp m hm
      have hmge : p.monthOfYear.getD 0 - 1 ≤ 11 := by rw [hm]; simp; omega
      obtain ⟨h2w, h2midx, _, _⟩ :=
        setMonth_spec (addYears d p.interval) h1w (p.monthOfYear.getD 0 - 1) hmge hy1
      apply hmain _ h2w
      rw [h2midx]
      have hyr : (addYears d p.interval).year = d.year + p.interval := rfl
      have hmd2 : d.month ≤ 12 := hd.2.1
      unfold monthIdx
      omega
    · rw [if_neg hmoy]
      apply hmain _ h1w
      omega

theorem genLoop_length_le (base : ICalendarEvent) (p : IRecurrencePattern) (endD : DateTime)
    (maxO dur : ℕ) : ∀ fuel cur count,
    (genLoop base p endD maxO dur fuel cur count).length ≤ fuel := by
  intro fuel
  induction fuel with
  | zero =>
    intro cur count
    simp [genLoop]
  | succ n ih =>
    intro cur count
    unfold genLoop
    split_ifs with h
    · simpa using ih (getNextOccurrence cur p) (count + 1)
    · simp

theorem genLoop_containment (base : ICalendarEvent) (p : IRecurrencePattern)
    (ws endD : DateTime) (maxO dur : ℕ) (hp : validPattern p = true) :
    ∀ fuel cur count, cur.wf → toTime ws ≤ toTime cur →
      ∀ e ∈ genLoop base p endD maxO dur fuel cur count,
        toTime ws ≤ toTime e.start ∧ toTime e.start < toTime endD := by
  intro fuel
  induction fuel with
  | zero =>
    intro cur count _ _ e he
    simp [genLoop] at he
  | succ n ih =>
    intro cur count hw hws e he
    unfold genLoop at he
    split_ifs at he with hcond
    · rcases List.mem_cons.mp he with rfl | hrest
      · have hstart : (mkRecurringInstance base cur count dur).start = cur := rfl
        rw [hstart]
        refine ⟨hws, ?_⟩
        have hb : isBefore cur endD = true := by
          simp only [Bool.and_eq_true] at hcond
          exact hcond.1.1.1
        exact (isBefore_iff _ _).mp hb
      · obtain ⟨hwn, hdn⟩ := getNextOccurrence_spec cur p hw hp
        have hnext : toTime cur < toTime (getNextOccurrence cur p) :=
          toTime_lt_mono _ _ hw.2.2.2.2.1 hdn
        exact ih (getNextOccurrence cur p) (count + 1) hwn (by omega) e hrest
    · simp at he

/-- C10: the expansion loop of `generateRecurringEvents` always terminates
(it is a total function of explicit fuel) and never returns more than
`maxOccurrences` occurrences, for every base event, pattern (including
unbounded patterns and a zero interval, where the cursor never advances),
window and cap: the occurrence counter increases on every iteration and the
`occurrenceCount < maxOccurrences` guard stops the loop at the cap. -/
theorem generateRecurringEvents_length_le (baseEvent : ICalendarEvent)
    (p : IRecurrencePattern) (startDate endDate : DateTime) (maxOccurrences : ℕ) :
    (generateRecurringEvents baseEvent p startDate endDate maxOccurrences).length ≤
      maxOccurrences := by
  unfold generateRecurringEvents
  exact genLoop_length_le baseEvent p endDate maxOccurrences _ maxOccurrences _ 0

/-- C3: every occurrence returned by the Occurrence Expander
(`generateRecurringEvents`) lies inside the requested window: its start is
at or after `startDate` and strictly before `endDate`, for every well-formed
base event start and window start and every pattern that is valid per the
data model (interval ≥ 1, days-of-week within 0–6, day-of-month ≤ 31,
month-of-year ≤ 12). -/
theorem generateRecurringEvents_window_containment (baseEvent : ICalendarEvent)
    (p : IRecurrencePattern) (startDate endDate : DateTime) (maxOccurrences : ℕ)
    (hb : baseEvent.start.wf) (hs : startDate.wf) (hp : validPattern p = true) :
    ∀ e ∈ generateRecurringEvents baseEvent p startDate endDate maxOccurrences,
      toTime startDate ≤ toTime e.start ∧ toTime e.start < toTime endDate := by
  intro e he
  unfold generateRecurringEvents at he
  by_cases hbs : isBefore baseEvent.start startDate = true
  · rw [if_pos hbs] at he
    obtain ⟨hwn, hdn⟩ := getNextOccurrence_spec startDate p hs hp
    have hlt : toTime startDate < toTime (getNextOccurrence startDate p) :=
      toTime_lt_mono _ _ hs.2.2.2.2.1 hdn
    exact genLoop_containment baseEvent p startDate endDate maxOccurrences _ hp
      maxOccurrences _ 0 hwn (by omega) e he
  · rw [if_neg hbs] at he
    have hge : toTime startDate ≤ toTime baseEvent.start := by
      have hiff := isBefore_iff baseEvent.start startDate
      rcases Nat.lt_or_ge (toTime baseEvent.start) (toTime startDate) with hc | hc
      · exact absurd (hiff.mpr hc) hbs
      · exact hc
    exact genLoop_containment baseEvent p startDate endDate maxOccurrences _ hp
      maxOccurrences _ 0 hb hge e he

/-- A concrete recurring base event anchored on Monday 2025-01-06, 09:00
(one-hour duration), used to instantiate the expansion scenarios. -/
def mondayBase : ICalendarEvent :=
  { id := "sp_cal1_42", title := "Standup", description := "Daily sync",
    start := ⟨2025, 1, 6, 32400000⟩, «end» := ⟨2025, 1, 6, 36000000⟩,
    isAllDay := false, isRecurring := true, calendarId := "sp_cal1",
    calendarTitle := "Team", calendarType := .sharePoint, organizer := "alice@contoso.com",
    created := ⟨2025, 1, 1, 0⟩, modified := ⟨2025, 1, 1, 0⟩,
    webUrl := "https://contoso/cal1", color := "#0078d4" }

/-- Weekly Monday/Wednesday/Friday pattern with interval 1. -/
def mwfPattern : IRecurrencePattern :=
  { type := .weekly, interval := 1, daysOfWeek := some [1, 3, 5] }

/-- Monthly day-31 pattern with interval 1. -/
def monthly31 : IRecurrencePattern :=
  { type := .monthly, interval := 1, dayOfMonth := some 31 }

theorem generateRecurringEvents_window_containment_witness :
    toTime ⟨2025, 1, 6, 32400000⟩ ≤
        toTime (((generateRecurringEvents mondayBase mwfPattern ⟨2025, 1, 6, 32400000⟩
          (addDays ⟨2025, 1, 6, 32400000⟩ 14) 100).headD mondayBase).start) ∧
      toTime (((generateRecurringEvents mondayBase mwfPattern ⟨2025, 1, 6, 32400000⟩
          (addDays ⟨2025, 1, 6, 32400000⟩ 14) 100).headD mondayBase).start) <
        toTime (addDays ⟨2025, 1, 6, 32400000⟩ 14) :=
  generateRecurringEvents_window_containment mondayBase mwfPattern
    ⟨2025, 1, 6, 32400000⟩ (addDays ⟨2025, 1, 6, 32400000⟩ 14) 100
    (by decide) (by decide) (by decide) _ (by decide)

/-- A base event anchored on 2025-01-31 (one-hour duration at 10:00). -/
def jan31Event : ICalendarEvent :=
  { mondayBase with
      id := "sp_cal1_77"
      title := "Monthly review"
      start := ⟨2025, 1, 31, 36000000⟩
      «end» := ⟨2025, 1, 31, 39600000⟩ }

/-- The same base event in the leap year 2024. -/
def jan31EventLeap : ICalendarEvent :=
  { jan31Event with
      start := ⟨2024, 1, 31, 36000000⟩
      «end» := ⟨2024, 1, 31, 39600000⟩ }

set_option maxRecDepth 4000 in
/-- C4: a monthly pattern with `dayOfMonth = 31` and interval 1, anchored on
January 31, expanded through a window covering February, yields an
occurrence on the last day of February — the 28th in 2025, the 29th in the
leap year 2024 — with no error and no March date in the window. -/
theorem generateRecurringEvents_monthly_day31_february_clamp :
    ((generateRecurringEvents jan31Event monthly31 ⟨2025, 1, 1, 0⟩ ⟨2025, 3, 1, 0⟩ 100).map
        (fun e => (e.start.year, e.start.month, e.start.day))) =
      [(2025, 1, 31), (2025, 2, 28)] ∧
    daysInMonth 2025 2 = 28 ∧
    ((generateRecurringEvents jan31EventLeap monthly31 ⟨2024, 1, 1, 0⟩ ⟨2024, 3, 1, 0⟩ 100).map
        (fun e => (e.start.year, e.start.month, e.start.day))) =
      [(2024, 1, 31), (2024, 2, 29)] ∧
    daysInMonth 2024 2 = 29 := by
  decide

theorem genLoop_fields (base : ICalendarEvent) (p : IRecurrencePattern) (endD : DateTime)
    (maxO dur : ℕ) (hp : validPattern p = true) :
    ∀ fuel cur count, cur.wf →
      ∀ e ∈ genLoop base p endD maxO dur fuel cur count,
        (e.title = base.title ∧ e.description = base.description ∧
          e.location = base.location ∧ e.category = base.category ∧
          e.isAllDay = base.isAllDay ∧ e.isRecurring = base.isRecurring ∧
          e.calendarId = base.calendarId ∧ e.calendarTitle = base.calendarTitle ∧
          e.calendarType = base.calendarType ∧ e.organizer = base.organizer ∧
          e.created = base.created ∧ e.modified = base.modified ∧
          e.webUrl = base.webUrl ∧ e.color = base.color ∧
          e.importance = base.importance ∧ e.sensitivity = base.sensitivity ∧
          e.showAs = base.showAs ∧ e.attendees = base.attendees ∧
          e.attachments = base.attachments ∧ e.tags = base.tags ∧
          e.masterSeriesId = base.masterSeriesId ∧ e.isException = base.isException) ∧
        (∃ n, n < maxO ∧ e.id = base.id ++ "_recur_" ++ toString n) ∧
        toTime e.«end» = toTime e.start + dur := by
  intro fuel
  induction fuel with
  | zero =>
    intro cur count _ e he
    simp [genLoop] at he
  | succ n ih =>
    intro cur count hw e he
    unfold genLoop at he
    split_ifs at he with hcond
    · rcases List.mem_cons.mp he with rfl | hrest
      · have hmax : count < maxO := by
          simp only [Bool.and_eq_true, decide_eq_true_eq] at hcond
          exact hcond.1.1.2
        refine ⟨⟨rfl, rfl, rfl, rfl, rfl, rfl, rfl, rfl, rfl, rfl, rfl, rfl, rfl, rfl,
          rfl, rfl, rfl, rfl, rfl, rfl, rfl, rfl⟩, ⟨count, hmax, rfl⟩, ?_⟩
        exact (addMillis_spec cur hw dur).2
      · obtain ⟨hwn, _⟩ := getNextOccurrence_spec cur p hw hp
        exact ih (getNextOccurrence cur p) (count + 1) hwn e hrest
    · simp at he

/-- C5 (amended): every occurrence synthesized by `generateRecurringEvents`
copies all fields of the base event except `id` (which is the base id
suffixed `_recur_<n>` for some occurrence index `n` below the cap), `start`,
and `end` (which is `start` plus the base event's original duration).  In
particular `masterSeriesId` is *inherited unchanged* from the base event —
the generator does not set it to the base event's id, so synthesized
instances carry a back-reference only when the base event itself already
had one. -/
theorem generateRecurringEvents_instance_fields (baseEvent : ICalendarEvent)
    (p : IRecurrencePattern) (startDate endDate : DateTime) (maxOccurrences : ℕ)
    (hb : baseEvent.start.wf) (hs : startDate.wf) (hp : validPattern p = true)
    (hdur : toTime baseEvent.start ≤ toTime baseEvent.«end») :
    ∀ e ∈ generateRecurringEvents baseEvent p startDate endDate maxOccurrences,
      (e.title = baseEvent.title ∧ e.description = baseEvent.description ∧
        e.location = baseEvent.location ∧ e.category = baseEvent.category ∧
        e.isAllDay = baseEvent.isAllDay ∧ e.isRecurring = baseEvent.isRecurring ∧
        e.calendarId = baseEvent.calendarId ∧ e.calendarTitle = baseEvent.calendarTitle ∧
        e.calendarType = baseEvent.calendarType ∧ e.organizer = baseEvent.organizer ∧
        e.created = baseEvent.created ∧ e.modified = baseEvent.modified ∧
        e.webUrl = baseEvent.webUrl ∧ e.color = baseEvent.color ∧
        e.importance = baseEvent.importance ∧ e.sensitivity = baseEvent.sensitivity ∧
        e.showAs = baseEvent.showAs ∧ e.attendees = baseEvent.attendees ∧
        e.attachments = baseEvent.attachments ∧ e.tags = baseEvent.tags ∧
        e.masterSeriesId = baseEvent.masterSeriesId ∧ e.isException = baseEvent.isException) ∧
      (∃ n, n < maxOccurrences ∧ e.id = baseEvent.id ++ "_recur_" ++ toString n) ∧
      toTime e.«end» =
        toTime e.start + (toTime baseEvent.«end» - toTime baseEvent.start) := by
  intro e he
  unfold generateRecurringEvents at he
  by_cases hbs : isBefore baseEvent.start startDate = true
  · rw [if_pos hbs] at he
    obtain ⟨hwn, _⟩ := getNextOccurrence_spec startDate p hs hp
    exact genLoop_fields baseEvent p endDate maxOccurrences _ hp maxOccurrences _ 0 hwn e he
  · rw [if_neg hbs] at he
    exact genLoop_fields baseEvent p endDate maxOccurrences _ hp maxOccurrences _ 0 hb e he

set_option maxRecDepth 4000 in
theorem generateRecurringEvents_instance_fields_witness :
    ((generateRecurringEvents mondayBase mwfPattern ⟨2025, 1, 6, 32400000⟩
          (addDays ⟨2025, 1, 6, 32400000⟩ 14) 100).headD mondayBase).masterSeriesId =
        mondayBase.masterSeriesId ∧
      toTime ((generateRecurringEvents mondayBase mwfPattern ⟨2025, 1, 6, 32400000⟩
          (addDays ⟨2025, 1, 6, 32400000⟩ 14) 100).headD mondayBase).«end» =
        toTime ((generateRecurringEvents mondayBase mwfPattern ⟨2025, 1, 6, 32400000⟩
          (addDays ⟨2025, 1, 6, 32400000⟩ 14) 100).headD mondayBase).start +
          (toTime mondayBase.«end» - toTime mondayBase.start) := by
  have h := generateRecurringEvents_instance_fields mondayBase mwfPattern
    ⟨2025, 1, 6, 32400000⟩ (addDays ⟨2025, 1, 6, 32400000⟩ 14) 100
    (by decide) (by decide) (by decide) (by decide)
    ((generateRecurringEvents mondayBase mwfPattern ⟨2025, 1, 6, 32400000⟩
      (addDays ⟨2025, 1, 6, 32400000⟩ 14) 100).headD mondayBase) (by decide)
  obtain ⟨⟨_, _, _, _, _, _, _, _, _, _, _, _, _, _, _, _, _, _, _, _, hm, _⟩, _, hend⟩ := h
  exact ⟨hm, hend⟩

set_option maxRecDepth 4000 in
/-- C5 counterexample: the synthesized occurrences do *not* carry a
`masterSeriesId` back-reference to their generating base event.  For the
concrete Monday base event (whose `masterSeriesId` is absent), no generated
instance has `masterSeriesId = some baseId`. -/
theorem generateRecurringEvents_masterSeriesId_not_set :
    ¬ (∀ e ∈ generateRecurringEvents mondayBase mwfPattern ⟨2025, 1, 6, 32400000⟩
        (addDays ⟨2025, 1, 6, 32400000⟩ 14) 100,
        e.masterSeriesId = some mondayBase.id) := by
  decide

theorem toTime_addDays (d : DateTime) (h : d.wf) (k : ℕ) :
    toTime (addDays d k) = toTime d + k * dayMs := by
  obtain ⟨hw, hdn, ht⟩ := addDays_spec d h k
  unfold toTime
  rw [hdn, ht, Nat.add_mul]
  omega

theorem dow_addDays (d : DateTime) (h : d.wf) (k : ℕ) :
    dow (addDays d k) = (dow d + k) % 7 := by
  obtain ⟨_, hdn, _⟩ := addDays_spec d h k
  unfold dow
  rw [hdn]
  omega

theorem mwf_next13 (cur : DateTime) (h : cur.wf) (hd : dow cur = 1 ∨ dow cur = 3) :
    getNextOccurrence cur mwfPattern = addDays cur 2 := by
  have hsort : sortedNats [1, 3, 5] = [1, 3, 5] := by decide
  unfold getNextOccurrence
  rcases hd with hd | hd
  · simp only [mwfPattern, hsort, hd, List.length_cons, List.length_nil, setDow]
    norm_num [List.find?]
  · simp only [mwfPattern, hsort, hd, List.length_cons, List.length_nil, setDow]
    norm_num [List.find?]

theorem mwf_next5 (cur : DateTime) (h : cur.wf) (hd : dow cur = 5) :
    getNextOccurrence cur mwfPattern = addDays cur 3 := by
  have hsort : sortedNats [1, 3, 5] = [1, 3, 5] := by decide
  have hdow7 : dow (addDays cur 7) = 5 := by
    rw [dow_addDays cur h 7, hd]
  have hsub : subDays (addDays cur 7) 4 = addDays cur 3 := by
    obtain ⟨hw7, hdn7, ht7⟩ := addDays_spec cur h 7
    obtain ⟨hw3, hdn3, ht3⟩ := addDays_spec cur h 3
    have hpos := dayNumber_pos cur h
    obtain ⟨hws, hdns, hts⟩ := subDays_spec (addDays cur 7) hw7 4 (by omega)
    exact dayNumber_inj _ _ hws hw3 (by omega) (by rw [hts, ht7, ht3])
  have hweeks : addWeeks cur 1 = addDays cur 7 := by
    unfold addWeeks
    norm_num
  unfold getNextOccurrence
  simp only [mwfPattern, hsort, hd, List.length_cons, List.length_nil]
  norm_num [List.find?]
  rw [hweeks, setDow, hdow7]
  norm_num
  exact hsub

theorem genLoop_cons_eq (base : ICalendarEvent) (p : IRecurrencePattern) (endD : DateTime)
    (maxO dur fuel : ℕ) (cur : DateTime) (count : ℕ) (hf : fuel ≠ 0)
    (hcond : (isBefore cur endD && decide (count < maxO) &&
        (match p.endDate with | some pe => isBefore cur pe | none => true) &&
        (!truthyNat p.occurrences || decide (count < p.occurrences.getD 0))) = true) :
    genLoop base p endD maxO dur fuel cur count =
      mkRecurringInstance base cur count dur ::
        genLoop base p endD maxO dur (fuel - 1) (getNextOccurrence cur p) (count + 1) := by
  obtain ⟨n, rfl⟩ : ∃ n, fuel = n + 1 := ⟨fuel - 1, by omega⟩
  have heq : genLoop base p endD maxO dur (n + 1) cur count =
      if (isBefore cur endD && decide (count < maxO) &&
          (match p.endDate with | some pe => isBefore cur pe | none => true) &&
          (!truthyNat p.occurrences || decide (count < p.occurrences.getD 0))) then
        mkRecurringInstance base cur count dur ::
          genLoop base p endD maxO dur n (getNextOccurrence cur p) (count + 1)
      else [] := rfl
  rw [heq, if_pos hcond]
  simp only [Nat.add_sub_cancel]

theorem genLoop_nil_eq (base : ICalendarEvent) (p : IRecurrencePattern) (endD : DateTime)
    (maxO dur fuel : ℕ) (cur : DateTime) (count : ℕ)
    (hcond : (isBefore cur endD && decide (count < maxO) &&
        (match p.endDate with | some pe => isBefore cur pe | none => true) &&
        (!truthyNat p.occurrences || decide (count < p.occurrences.getD 0))) = false) :
    genLoop base p endD maxO dur fuel cur count = [] := by
  cases fuel with
  | zero => rfl
  | succ n =>
    unfold genLoop
    simp [hcond]

theorem mwf_cond (cur endD : DateTime) (count maxO : ℕ) :
    (isBefore cur endD && decide (count < maxO) &&
      (match mwfPattern.endDate with | some pe => isBefore cur pe | none => true) &&
      (!truthyNat mwfPattern.occurrences || decide (count < mwfPattern.occurrences.getD 0))) =
      (isBefore cur endD && decide (count < maxO)) := by
  simp [mwfPattern, truthyNat]

set_option maxHeartbeats 1600000 in
/-- C8: a weekly pattern with interval 1 and days-of-week
{Monday, Wednesday, Friday}, anchored on any well-formed Monday base event
and expanded over the two-week window starting at the base event's start,
yields exactly 6 occurrences, whose starts are the base start shifted by
0, 2, 4, 7, 9 and 11 days, and every occurrence falls on a Monday,
Wednesday or Friday. -/
theorem generateRecurringEvents_weekly_mwf_two_weeks (base : ICalendarEvent)
    (hw : base.start.wf) (hmon : dow base.start = 1) :
    ((generateRecurringEvents base mwfPattern base.start (addDays base.start 14) 100).map
        (fun e => e.start) =
      [base.start, addDays base.start 2, addDays base.start 4, addDays base.start 7,
        addDays base.start 9, addDays base.start 11]) ∧
    (generateRecurringEvents base mwfPattern base.start (addDays base.start 14) 100).length = 6 ∧
    (∀ s ∈ (generateRecurringEvents base mwfPattern base.start
        (addDays base.start 14) 100).map (fun e => e.start),
      dow s = 1 ∨ dow s = 3 ∨ dow s = 5) := by
  have w2 := (addDays_spec base.start hw 2).1
  have w4 := (addDays_spec base.start hw 4).1
  have w7 := (addDays_spec base.start hw 7).1
  have w9 := (addDays_spec base.start hw 9).1
  have w11 := (addDays_spec base.start hw 11).1
  have d2 : dow (addDays base.start 2) = 3 := by
    rw [dow_addDays base.start hw 2, hmon]
  have d4 : dow (addDays base.start 4) = 5 := by
    rw [dow_addDays base.start hw 4, hmon]
  have d7 : dow (addDays base.start 7) = 1 := by
    rw [dow_addDays base.start hw 7, hmon]
  have d9 : dow (addDays base.start 9) = 3 := by
    rw [dow_addDays base.start hw 9, hmon]
  have d11 : dow (addDays base.start 11) = 5 := by
    rw [dow_addDays base.start hw 11, hmon]
  have n0 : getNextOccurrence base.start mwfPattern = addDays base.start 2 :=
    mwf_next13 _ hw (Or.inl hmon)
  have n2 : getNextOccurrence (addDays base.start 2) mwfPattern = addDays base.start 4 := by
    rw [mwf_next13 _ w2 (Or.inr d2), ← addDays_add]
  have n4 : getNextOccurrence (addDays base.start 4) mwfPattern = addDays base.start 7 := by
    rw [mwf_next5 _ w4 d4, ← addDays_add]
  have n7 : getNextOccurrence (addDays base.start 7) mwfPattern = addDays base.start 9 := by
    rw [mwf_next13 _ w7 (Or.inl d7), ← addDays_add]
  have n9 : getNextOccurrence (addDays base.start 9) mwfPattern = addDays base.start 11 := by
    rw [mwf_next13 _ w9 (Or.inr d9), ← addDays_add]
  have n11 : getNextOccurrence (addDays base.start 11) mwfPattern = addDays base.start 14 := by
    rw [mwf_next5 _ w11 d11, ← addDays_add]
  have hbefore : ∀ δ : ℕ, δ < 14 → isBefore (addDays base.start δ) (addDays base.start 14) = true := by
    intro δ hδ
    rw [isBefore_iff, toTime_addDays _ hw δ, toTime_addDays _ hw 14]
    simp only [dayMs]
    omega
  have hb0 : isBefore base.start (addDays base.start 14) = true := hbefore 0 (by norm_num)
  have hb2 : isBefore (addDays base.start 2) (addDays base.start 14) = true := hbefore 2 (by norm_num)
  have hb4 : isBefore (addDays base.start 4) (addDays base.start 14) = true := hbefore 4 (by norm_num)
  have hb7 : isBefore (addDays base.start 7) (addDays base.start 14) = true := hbefore 7 (by norm_num)
  have hb9 : isBefore (addDays base.start 9) (addDays base.start 14) = true := hbefore 9 (by norm_num)
  have hb11 : isBefore (addDays base.start 11) (addDays base.start 14) = true := hbefore 11 (by norm_num)
  have hb14 : isBefore (addDays base.start 14) (addDays base.start 14) = false := by
    simp [isBefore]
  have hnotadjust : ¬ (isBefore base.start base.start = true) := by
    simp [isBefore]
  have hlist : ∀ dur : ℕ, genLoop base mwfPattern (addDays base.start 14) 100 dur 100 base.start 0 =
      [mkRecurringInstance base base.start 0 dur,
        mkRecurringInstance base (addDays base.start 2) 1 dur,
        mkRecurringInstance base (addDays base.start 4) 2 dur,
        mkRecurringInstance base (addDays base.start 7) 3 dur,
        mkRecurringInstance base (addDays base.start 9) 4 dur,
        mkRecurringInstance base (addDays base.start 11) 5 dur] := by
    intro dur
    rw [genLoop_cons_eq _ _ _ _ _ _ _ _ (by norm_num) (by rw [mwf_cond]; simp [hb0]), n0]
    rw [genLoop_cons_eq _ _ _ _ _ _ _ _ (by norm_num) (by rw [mwf_cond]; simp [hb2]), n2]
    rw [genLoop_cons_eq _ _ _ _ _ _ _ _ (by norm_num) (by rw [mwf_cond]; simp [hb4]), n4]
    rw [genLoop_cons_eq _ _ _ _ _ _ _ _ (by norm_num) (by rw [mwf_cond]; simp [hb7]), n7]
    rw [genLoop_cons_eq _ _ _ _ _ _ _ _ (by norm_num) (by rw [mwf_cond]; simp [hb9]), n9]
    rw [genLoop_cons_eq _ _ _ _ _ _ _ _ (by norm_num) (by rw [mwf_cond]; simp [hb11]), n11]
    rw [genLoop_nil_eq _ _ _ _ _ _ _ _ (by rw [mwf_cond]; simp [hb14])]
  have hgen : generateRecurringEvents base mwfPattern base.start (addDays base.start 14) 100 =
      [mkRecurringInstance base base.start 0 (toTime base.«end» - toTime base.start),
        mkRecurringInstance base (addDays base.start 2) 1 (toTime base.«end» - toTime base.start),
        mkRecurringInstance base (addDays base.start 4) 2 (toTime base.«end» - toTime base.start),
        mkRecurringInstance base (addDays base.start 7) 3 (toTime base.«end» - toTime base.start),
        mkRecurringInstance base (addDays base.start 9) 4 (toTime base.«end» - toTime base.start),
        mkRecurringInstance base (addDays base.start 11) 5 (toTime base.«end» - toTime base.start)] := by
    unfold generateRecurringEvents
    rw [if_neg hnotadjust]
    exact hlist _
  have hmapeq : (generateRecurringEvents base mwfPattern base.start
      (addDays base.start 14) 100).map (fun e => e.start) =
      [base.start, addDays base.start 2, addDays base.start 4, addDays base.start 7,
        addDays base.start 9, addDays base.start 11] := by
    rw [hgen]
    simp [mkRecurringInstance]
  refine ⟨hmapeq, ?_, ?_⟩
  · have hlen := congrArg List.length hmapeq
    simpa using hlen
  · intro s hs
    rw [hmapeq] at hs
    simp only [List.mem_cons, List.not_mem_nil, or_false] at hs
    rcases hs with h | h | h | h | h | h <;> rw [h]
    · exact Or.inl hmon
    · exact Or.inr (Or.inl d2)
    · exact Or.inr (Or.inr d4)
    · exact Or.inl d7
    · exact Or.inr (Or.inl d9)
    · exact Or.inr (Or.inr d11)

theorem generateRecurringEvents_weekly_mwf_two_weeks_witness :
    ((generateRecurringEvents mondayBase mwfPattern mondayBase.start
        (addDays mondayBase.start 14) 100).map (fun e => e.start) =
      [mondayBase.start, addDays mondayBase.start 2, addDays mondayBase.start 4,
        addDays mondayBase.start 7, addDays mondayBase.start 9, addDays mondayBase.start 11]) ∧
    (generateRecurringEvents mondayBase mwfPattern mondayBase.start
        (addDays mondayBase.start 14) 100).length = 6 ∧
    (∀ s ∈ (generateRecurringEvents mondayBase mwfPattern mondayBase.start
        (addDays mondayBase.start 14) 100).map (fun e => e.start),
      dow s = 1 ∨ dow s = 3 ∨ dow s = 5) :=
  generateRecurringEvents_weekly_mwf_two_weeks mondayBase (by decide) (by decide)

/-- Calendar source (`ICalendarSource`), reduced to the fields the embedded
aggregation paths read (`id`, `title`, `type`). -/
structure ICalendarSource where
  id : String
  title : String
  type : CalendarSourceType
  deriving DecidableEq, Repr

/-- `Math.ceil(a / b)` on non-negative integers. -/
def ceilDiv (a b : ℕ) : ℕ :=
  (a + b - 1) / b

/-- The comparator `(a, b) => a.start.getTime() - b.start.getTime()` used to
sort merged events, as the total preorder it induces. -/
def startLe (a b : ICalendarEvent) : Prop :=
  toTime a.start ≤ toTime b.start

instance : DecidableRel startLe := fun a b => by
  unfold startLe; infer_instance

instance : IsTotal ICalendarEvent startLe :=
  ⟨fun a b => Nat.le_total _ _⟩

instance : IsTrans ICalendarEvent startLe :=
  ⟨fun _ _ _ h1 h2 => Nat.le_trans h1 h2⟩

/-- The cache-miss computation of `CalendarService.getEventsFromSources`
(README.md lines 600–634): fan out one fetch per source with per-source cap
`ceil(maxEvents / sources.length)`, replace a throwing fetch by an empty
list, concatenate, sort ascending by start (JavaScript `Array.sort` is
stable; modelled by `insertionSort`), and truncate to `maxEvents`.  `fetch`
abstracts `getEventsFromSource` — an `Except.error` models a thrown error.
The cache write and the error log do not affect the returned value. -/
def getEventsFromSourcesCore
    (fetch : ICalendarSource → ℕ → Except String (List ICalendarEvent))
    (sources : List ICalendarSource) (maxEvents : ℕ) : List ICalendarEvent :=
  let eventArrays := sources.map (fun s =>
    match fetch s (ceilDiv maxEvents sources.length) with
    | .ok events => events
    | .error _ => [])
  let allEvents := eventArrays.flatten
  let sortedEvents := List.insertionSort startLe allEvents
  sortedEvents.take maxEvents

/-- `CalendarService.getEventsFromSources` (README.md lines 591–637).
`cachedAgg` abstracts the `getCachedAggregatedEvents` lookup: a hit whose
length fits within `maxEvents` is returned truncated, otherwise the
computation falls through to the fan-out. -/
def getEventsFromSources
    (fetch : ICalendarSource → ℕ → Except String (List ICalendarEvent))
    (cachedAgg : Option (List ICalendarEvent)) (sources : List ICalendarSource)
    (maxEvents : ℕ) : List ICalendarEvent :=
  match cachedAgg with
  | some cached =>
    if cached.length ≤ maxEvents then cached.take maxEvents
    else getEventsFromSourcesCore fetch sources maxEvents
  | none => getEventsFromSourcesCore fetch sources maxEvents

/-- JavaScript `String.toLowerCase`, character-wise (kernel-reducible model
of `String.toLower`). -/
def lcStr (s : String) : String :=
  String.mk (s.data.map Char.toLower)

/-- ASCII whitespace test used by `trimStr`. -/
def isWS (c : Char) : Bool :=
  c == ' ' || c == '\t' || c == '\n' || c == '\r'

/-- JavaScript `String.trim`: strip whitespace from both ends
(kernel-reducible model of `String.trim`). -/
def trimStr (s : String) : String :=
  String.mk (((s.data.dropWhile isWS).reverse.dropWhile isWS).reverse)

/-- The deduplication key of `CalendarService.removeDuplicateEvents`
(README.md line 1343): lower-cased concatenation of title, start timestamp
and organizer.  The timestamp is rendered from `toTime`, which differs from
`Date.getTime()` by a fixed offset; only equality of keys is ever used, and
key equality is invariant under that shift. -/
def dedupKey (e : ICalendarEvent) : String :=
  lcStr (e.title ++ "_" ++ toString (toTime e.start) ++ "_" ++ e.organizer)

/-- The seen-set loop of `removeDuplicateEvents`. -/
def dedupGo (seen : List String) : List ICalendarEvent → List ICalendarEvent
  | [] => []
  | e :: rest =>
    let key := dedupKey e
    if seen.contains key then dedupGo seen rest
    else e :: dedupGo (key :: seen) rest

/-- `CalendarService.removeDuplicateEvents` (README.md lines 1338–1351). -/
def removeDuplicateEvents (events : List ICalendarEvent) : List ICalendarEvent :=
  dedupGo [] events

/-- JavaScript `String.includes`: substring containment. -/
def strContains (hay needle : String) : Bool :=
  hay.toList.tails.any (fun t => needle.toList == t.take needle.toList.length)

/-- `ValidationUtils.validateSearchQuery`, reduced to its `isValid` verdict:
the query must be a non-empty string whose trim is non-empty (warnings do
not affect validity). -/
def validateSearchQuery (query : String) : Bool :=
  decide (¬ query = "") && decide (¬ trimStr query = "")

/-- The search relevance of an event for a query: 1 when the lower-cased
title contains the lower-cased query, else 0 (README.md lines 686–687). -/
def searchRelevance (query : String) (e : ICalendarEvent) : ℕ :=
  if strContains (lcStr e.title) (lcStr query) then 1 else 0

/-- The total preorder induced by the search comparator (README.md lines
685–695): higher relevance first, then ascending start time. -/
def searchCmpLe (query : String) (a b : ICalendarEvent) : Prop :=
  searchRelevance query b < searchRelevance query a ∨
    (searchRelevance query a = searchRelevance query b ∧ toTime a.start ≤ toTime b.start)

instance (query : String) : DecidableRel (searchCmpLe query) := fun a b => by
  unfold searchCmpLe; infer_instance

instance (query : String) : IsTotal ICalendarEvent (searchCmpLe query) := by
  refine ⟨fun a b => ?_⟩
  unfold searchCmpLe
  rcases Nat.lt_trichotomy (searchRelevance query a) (searchRelevance query b) with h | h | h
  · exact Or.inr (Or.inl h)
  · rcases Nat.le_total (toTime a.start) (toTime b.start) with ht | ht
    · exact Or.inl (Or.inr ⟨h, ht⟩)
    · exact Or.inr (Or.inr ⟨h.symm, ht⟩)
  · exact Or.inl (Or.inl h)

instance (query : String) : IsTrans ICalendarEvent (searchCmpLe query) := by
  refine ⟨fun a b c h1 h2 => ?_⟩
  unfold searchCmpLe at *
  rcases h1 with h1 | ⟨h1e, h1t⟩ <;> rcases h2 with h2 | ⟨h2e, h2t⟩
  · exact Or.inl (by omega)
  · exact Or.inl (by omega)
  · exact Or.inl (by omega)
  · exact Or.inr ⟨by omega, Nat.le_trans h1t h2t⟩

/-- `CalendarService.searchEvents` (README.md lines 642–707).  `spSvc` and
`exSvc` abstract the SharePoint and Exchange search collaborators (an
`Except.error` models a thrown error, caught and replaced by an empty
contribution); `cachedResults` abstracts `getCachedSearchResults`.  The
cache writes and error logs do not affect the returned value. -/
def searchEvents
    (spSvc exSvc : List ICalendarSource → String → ℕ → Except String (List ICalendarEvent))
    (cachedResults : Option (List ICalendarEvent)) (sources : List ICalendarSource)
    (query : String) (maxResults : ℕ) : Except String (List ICalendarEvent) :=
  if validateSearchQuery query = false then .error "Invalid search query"
  else
    match cachedResults with
    | some cached => .ok (cached.take maxResults)
    | none =>
      let sharePointSources := sources.filter (fun s => s.type == CalendarSourceType.sharePoint)
      let spResults :=
        if 0 < sharePointSources.length then
          match spSvc sharePointSources query maxResults with
          | .ok l => l
          | .error _ => []
        else []
      let exchangeSources := sources.filter (fun s => s.type == CalendarSourceType.exchange)
      let exResults :=
        if 0 < exchangeSources.length then
          match exSvc exchangeSources query maxResults with
          | .ok l => l
          | .error _ => []
        else []
      let allResults := spResults ++ exResults
      let uniqueResults := removeDuplicateEvents allResults
      let ranked := List.insertionSort (searchCmpLe query) uniqueResults
      .ok (ranked.take maxResults)

/-- `CalendarService.calculateEventOverlap` (README.md lines 1455–1472):
overlap of two events in whole minutes, 0 when the `[start, end)` intervals
do not overlap. -/
def calculateEventOverlap (event1 event2 : ICalendarEvent) : ℕ :=
  let start1 := toTime event1.start
  let end1 := toTime event1.«end»
  let start2 := toTime event2.start
  let end2 := toTime event2.«end»
  if end1 ≤ start2 ∨ end2 ≤ start1 then 0
  else max 0 ((min end1 end2 - max start1 start2) / 60000)

/-- The spec's description of the overlap magnitude:
`min(end1, end2) − max(start1, start2)` converted to whole minutes and
floored at zero (computed in ℤ and clamped). -/
def specOverlapMinutes (event1 event2 : ICalendarEvent) : ℕ :=
  (Int.toNat (min (toTime event1.«end» : ℤ) (toTime event2.«end») -
    max (toTime event1.start : ℤ) (toTime event2.start))) / 60000

/-- The pairwise conflict scan of `CalendarService.getEventConflicts`
(README.md lines 1202–1237), applied to the date-bounded event list returned
by `getEventsForDateRange` (abstracted as the input list): for every pair
`i < j`, skip pairs involving an all-day event, and report the pair with its
overlap when the overlap is positive. -/
def getEventConflicts : List ICalendarEvent → List (ICalendarEvent × ICalendarEvent × ℕ)
  | [] => []
  | e1 :: rest =>
    rest.filterMap (fun e2 =>
      if e1.isAllDay || e2.isAllDay then none
      else
        let overlap := calculateEventOverlap e1 e2
        if 0 < overlap then some (e1, e2, overlap) else none)
    ++ getEventConflicts rest

/-- `ICacheItem` (CacheService, part_001 lines 4–8). -/
structure ICacheItem (α : Type) where
  data : α
  timestamp : ℕ
  expiry : ℕ

/-- The `CacheService` map state, modelled extensionally as a partial map
from keys to cache items (the JavaScript `Map` up to iteration order, which
none of the embedded operations observe). -/
def CacheState (α : Type) : Type :=
  String → Option (ICacheItem α)

/-- `AppConstants.CACHE_DURATION_MINUTES`. -/
def CACHE_DURATION_MINUTES : ℕ := 15

/-- `CacheService.defaultTtl` in milliseconds. -/
def defaultTtl : ℕ :=
  CACHE_DURATION_MINUTES * 60 * 1000

/-- `CacheService.cleanupExpired` at time `now`: delete every entry whose
expiry lies strictly in the past. -/
def cleanupExpired (now : ℕ) (c : CacheState α) : CacheState α :=
  fun key =>
    match c key with
    | some item => if item.expiry < now then none else some item
    | none => none

/-- `CacheService.set` (part_001 lines 35–49) at time `now`: store the item
with expiry `now + ttl` (the default TTL when `ttlMinutes` is falsy), then
sweep expired entries. -/
def cacheSet (c : CacheState α) (key : String) (data : α) (ttlMinutes : Option ℕ)
    (now : ℕ) : CacheState α :=
  let ttl := if truthyNat ttlMinutes then ttlMinutes.getD 0 * 60 * 1000 else defaultTtl
  let item : ICacheItem α := ⟨data, now, now + ttl⟩
  cleanupExpired now (fun k => if k == key then some item else c k)

/-- `CacheService.get` (part_001 lines 54–68) at time `now`: absent keys and
expired entries yield `none`, an expired entry is deleted on access. -/
def cacheGet (c : CacheState α) (key : String) (now : ℕ) : CacheState α × Option α :=
  match c key with
  | none => (c, none)
  | some item =>
    if now > item.expiry then ((fun k => if k == key then none else c k), none)
    else (c, some item.data)

/-- C6: for every cache state, key, value and TTL, `set(k, v, ttl)` followed
immediately by `get(k)` returns `v`; and at any instant strictly past the
entry's expiry (set time plus effective TTL, the default when `ttlMinutes`
is falsy), `get(k)` returns absent and evicts the expired entry on that
access. -/
theorem cacheService_set_get_coherence {α : Type} (c : CacheState α) (k : String)
    (v : α) (ttl : Option ℕ) (now after : ℕ)
    (hafter : now + (if truthyNat ttl = true then ttl.getD 0 * 60 * 1000 else defaultTtl) <
      after) :
    (cacheGet (cacheSet c k v ttl now) k now).2 = some v ∧
      (cacheGet (cacheSet c k v ttl now) k after).2 = none ∧
      (cacheGet (cacheSet c k v ttl now) k after).1 k = none := by
  have hk : (cacheSet c k v ttl now) k =
      some ⟨v, now, now + (if truthyNat ttl = true then ttl.getD 0 * 60 * 1000
        else defaultTtl)⟩ := by
    unfold cacheSet cleanupExpired
    simp only [beq_self_eq_true, if_true]
    rw [if_neg (by omega)]
  refine ⟨?_, ?_, ?_⟩
  · unfold cacheGet
    rw [hk]
    simp only
    rw [if_neg (by omega)]
  · unfold cacheGet
    rw [hk]
    simp only
    rw [if_pos (by omega)]
  · unfold cacheGet
    rw [hk]
    simp only
    rw [if_pos (by omega)]
    simp

theorem cacheService_set_get_coherence_witness :
    (cacheGet (cacheSet (fun _ => (none : Option (ICacheItem ℕ))) "k" 7 (some 1) 0) "k" 0).2 =
        some 7 ∧
      (cacheGet (cacheSet (fun _ => (none : Option (ICacheItem ℕ))) "k" 7 (some 1) 0)
        "k" 60001).2 = none ∧
      (cacheGet (cacheSet (fun _ => (none : Option (ICacheItem ℕ))) "k" 7 (some 1) 0)
        "k" 60001).1 "k" = none :=
  cacheService_set_get_coherence (fun _ => none) "k" 7 (some 1) 0 60001 (by decide)

/-- C7: the conflict-overlap computation is symmetric, equals the spec's
`min(end1, end2) − max(start1, start2)` in whole minutes floored at zero,
and the pairwise conflict scan never reports a pair involving an all-day
event. -/
theorem calculateEventOverlap_symmetric_and_allday_excluded :
    (∀ e1 e2 : ICalendarEvent, calculateEventOverlap e1 e2 = calculateEventOverlap e2 e1) ∧
    (∀ e1 e2 : ICalendarEvent, calculateEventOverlap e1 e2 = specOverlapMinutes e1 e2) ∧
    (∀ events : List ICalendarEvent, ∀ c ∈ getEventConflicts events,
      c.1.isAllDay = false ∧ c.2.1.isAllDay = false) := by
  refine ⟨?_, ?_, ?_⟩
  · intro e1 e2
    unfold calculateEventOverlap
    simp only
    split_ifs with h1 h2
    · rfl
    · omega
    · omega
    · rw [Nat.min_comm (toTime e1.«end»), Nat.max_comm (toTime e1.start)]
  · intro e1 e2
    unfold calculateEventOverlap specOverlapMinutes
    simp only
    have hcast : (min (toTime e1.«end» : ℤ) (toTime e2.«end») -
        max (toTime e1.start : ℤ) (toTime e2.start)).toNat =
        min (toTime e1.«end») (toTime e2.«end») - max (toTime e1.start) (toTime e2.start) := by
      rw [← Nat.cast_min, ← Nat.cast_max, Int.toNat_sub]
    rw [hcast]
    split_ifs with h
    · have hz : min (toTime e1.«end») (toTime e2.«end») -
          max (toTime e1.start) (toTime e2.start) = 0 := by
        omega
      rw [hz]
    · rw [Nat.zero_max]
  · intro events
    induction events with
    | nil =>
      intro c hc
      simp [getEventConflicts] at hc
    | cons e1 rest ih =>
      intro c hc
      unfold getEventConflicts at hc
      rw [List.mem_append] at hc
      rcases hc with hc | hc
      · rw [List.mem_filterMap] at hc
        obtain ⟨e2, _, hf⟩ := hc
        by_cases hall : (e1.isAllDay || e2.isAllDay) = true
        · rw [if_pos hall] at hf
          simp at hf
        · rw [if_neg hall] at hf
          simp only [Bool.or_eq_true, not_or, Bool.not_eq_true] at hall
          simp only at hf
          split_ifs at hf with hov
          · simp only [Option.some.injEq] at hf
            subst hf
            exact ⟨hall.1, hall.2⟩
      · exact ih c hc

/-- Concrete aggregation source used in the counterexamples and witnesses. -/
def dupSource : ICalendarSource :=
  ⟨"sp_cal1", "Team", .sharePoint⟩

/-- A per-source fetch (model of `getEventsFromSource`) returning the single
`mondayBase` event, truncated to the per-source cap. -/
def oneEventFetch : ICalendarSource → ℕ → Except String (List ICalendarEvent) :=
  fun _ k => .ok ([mondayBase].take k)

/-- C1 counterexample: referencing the same source twice in one
`getEventsFromSources` call does *not* yield the same output as referencing
it once — the event is returned twice, because `getEventsFromSources` never
deduplicates (no `removeDuplicateEvents` call on this path). -/
theorem getEventsFromSources_duplicate_source_differs :
    getEventsFromSources oneEventFetch none [dupSource, dupSource] 1000 ≠
      getEventsFromSources oneEventFetch none [dupSource] 1000 := by
  decide

/-- C1 (amended): on a cache miss, calling `getEventsFromSources` on a list
that references `s` twice returns the start-sorted concatenation of the two
identical per-source results (each fetched under the halved per-source cap
`ceil(maxEvents/2)`) truncated to `maxEvents` — every fetched event appears
twice; duplicate source references are not deduplicated.  Deduplication via
`removeDuplicateEvents` happens only on the search and date-range paths. -/
theorem getEventsFromSources_duplicate_source_no_dedup
    (fetch : ICalendarSource → ℕ → Except String (List ICalendarEvent))
    (s : ICalendarSource) (maxEvents : ℕ) (l : List ICalendarEvent)
    (hf : fetch s (ceilDiv maxEvents 2) = .ok l) :
    getEventsFromSources fetch none [s, s] maxEvents =
      (List.insertionSort startLe (l ++ l)).take maxEvents := by
  unfold getEventsFromSources getEventsFromSourcesCore
  simp [hf]

theorem getEventsFromSources_duplicate_source_no_dedup_witness :
    getEventsFromSources oneEventFetch none [dupSource, dupSource] 1000 =
      (List.insertionSort startLe
        ([mondayBase].take (ceilDiv 1000 2) ++ [mondayBase].take (ceilDiv 1000 2))).take 1000 :=
  getEventsFromSources_duplicate_source_no_dedup oneEventFetch dupSource 1000
    ([mondayBase].take (ceilDiv 1000 2)) rfl

/-- C2: per-source failures never escalate — `getEventsFromSources` is a
total function of its inputs (every per-source throw is caught at the
fan-out boundary and contributes an empty list).  With three sources of
which the second throws, it returns the merged, start-sorted, truncated
events of the other two; and whenever every source's fetch throws, it
returns the empty list rather than an error. -/
theorem getEventsFromSources_partial_failure
    (fetch : ICalendarSource → ℕ → Except String (List ICalendarEvent))
    (s1 s2 s3 : ICalendarSource) (maxEvents : ℕ) (l1 l3 : List ICalendarEvent) (err : String)
    (h1 : fetch s1 (ceilDiv maxEvents 3) = .ok l1)
    (h2 : fetch s2 (ceilDiv maxEvents 3) = .error err)
    (h3 : fetch s3 (ceilDiv maxEvents 3) = .ok l3) :
    getEventsFromSources fetch none [s1, s2, s3] maxEvents =
      (List.insertionSort startLe (l1 ++ l3)).take maxEvents ∧
    (∀ fetch2 : ICalendarSource → ℕ → Except String (List ICalendarEvent),
      ∀ sources : List ICalendarSource, ∀ maxE : ℕ,
      (∀ s ∈ sources, ∀ k, ∃ e, fetch2 s k = .error e) →
      getEventsFromSources fetch2 none sources maxE = []) := by
  constructor
  · unfold getEventsFromSources getEventsFromSourcesCore
    simp [h1, h2, h3]
  · intro fetch2 sources maxE hall
    unfold getEventsFromSources getEventsFromSourcesCore
    simp only
    have hmap : sources.map (fun s =>
        match fetch2 s (ceilDiv maxE sources.length) with
        | .ok events => events
        | .error _ => []) = sources.map (fun _ => ([] : List ICalendarEvent)) := by
      apply List.map_congr_left
      intro s hs
      obtain ⟨e, he⟩ := hall s hs (ceilDiv maxE sources.length)
      rw [he]
    rw [hmap]
    simp

/-- A per-source fetch that always throws. -/
def throwingFetch : ICalendarSource → ℕ → Except String (List ICalendarEvent) :=
  fun _ _ => .error "backend unreachable"

/-- A per-source fetch that throws exactly for the source with id `"s2"`. -/
def mixedFetch : ICalendarSource → ℕ → Except String (List ICalendarEvent) :=
  fun s k => if s.id == "s2" then .error "backend unreachable" else .ok ([mondayBase].take k)

theorem getEventsFromSources_partial_failure_witness :
    getEventsFromSources mixedFetch none
        [⟨"s1", "A", .sharePoint⟩, ⟨"s2", "B", .exchange⟩, ⟨"s3", "C", .sharePoint⟩] 1000 =
      (List.insertionSort startLe
        ([mondayBase].take (ceilDiv 1000 3) ++ [mondayBase].take (ceilDiv 1000 3))).take 1000 ∧
    (∀ fetch2 : ICalendarSource → ℕ → Except String (List ICalendarEvent),
      ∀ sources : List ICalendarSource, ∀ maxE : ℕ,
      (∀ s ∈ sources, ∀ k, ∃ e, fetch2 s k = .error e) →
      getEventsFromSources fetch2 none sources maxE = []) :=
  getEventsFromSources_partial_failure mixedFetch
    ⟨"s1", "A", .sharePoint⟩ ⟨"s2", "B", .exchange⟩ ⟨"s3", "C", .sharePoint⟩ 1000
    ([mondayBase].take (ceilDiv 1000 3)) ([mondayBase].take (ceilDiv 1000 3))
    "backend unreachable" rfl rfl rfl

/-- The search comparator's induced order implies the two-bucket ranking:
the earlier event's title matches whenever the later one's does, and equal
match status forces ascending start times. -/
theorem searchCmpLe_imp (query : String) (a b : ICalendarEvent)
    (h : searchCmpLe query a b) :
    (strContains (lcStr b.title) (lcStr query) = true →
      strContains (lcStr a.title) (lcStr query) = true) ∧
    (strContains (lcStr a.title) (lcStr query) =
        strContains (lcStr b.title) (lcStr query) →
      toTime a.start ≤ toTime b.start) := by
  unfold searchCmpLe searchRelevance at h
  constructor
  · intro hbt
    by_contra hat
    rw [Bool.not_eq_true] at hat
    rw [hbt, hat] at h
    simp at h
  · intro heq
    rw [heq] at h
    rcases h with h | ⟨_, ht⟩
    · omega
    · exact ht

/-- C9: whenever `searchEvents` returns a result list (cache miss path),
that list is ranked in two buckets: every returned event whose lower-cased
title contains the lower-cased query precedes every returned event whose
title does not, and within the same match status events are in ascending
start order. -/
theorem searchEvents_two_bucket_ranking
    (spSvc exSvc : List ICalendarSource → String → ℕ → Except String (List ICalendarEvent))
    (sources : List ICalendarSource) (query : String) (maxResults : ℕ)
    (out : List ICalendarEvent)
    (hout : searchEvents spSvc exSvc none sources query maxResults = .ok out) :
    out.Pairwise (fun a b =>
      (strContains (lcStr b.title) (lcStr query) = true →
        strContains (lcStr a.title) (lcStr query) = true) ∧
      (strContains (lcStr a.title) (lcStr query) =
          strContains (lcStr b.title) (lcStr query) →
        toTime a.start ≤ toTime b.start)) := by
  unfold searchEvents at hout
  split_ifs at hout with hv
  · simp only [Except.ok.injEq] at hout
    rw [← hout]
    exact List.Pairwise.imp (fun h => searchCmpLe_imp query _ _ h)
      (List.Pairwise.sublist (List.take_sublist _ _) (List.sorted_insertionSort _ _))

/-- Concrete event whose title matches the query `"sync"`, starting a day
after `lunchEvent`. -/
def syncEvent : ICalendarEvent :=
  { mondayBase with
    id := "sp_cal1_77"
    title := "Team Sync"
    start := ⟨2025, 1, 8, 32400000⟩
    «end» := ⟨2025, 1, 8, 36000000⟩ }

/-- Concrete event whose title does not match the query `"sync"`, starting
before `syncEvent`. -/
def lunchEvent : ICalendarEvent :=
  { mondayBase with
    id := "sp_cal1_78"
    title := "Lunch"
    start := ⟨2025, 1, 7, 43200000⟩
    «end» := ⟨2025, 1, 7, 46800000⟩ }

/-- SharePoint search collaborator returning the non-matching event before
the matching one. -/
def spSearchSvc : List ICalendarSource → String → ℕ → Except String (List ICalendarEvent) :=
  fun _ _ _ => .ok [lunchEvent, syncEvent]

/-- Exchange search collaborator that always throws. -/
def exSearchSvc : List ICalendarSource → String → ℕ → Except String (List ICalendarEvent) :=
  fun _ _ _ => .error "exchange unreachable"

deriving instance DecidableEq for Except

set_option maxRecDepth 8000 in
theorem searchEvents_two_bucket_ranking_witness :
    List.Pairwise (fun a b =>
      (strContains (lcStr b.title) (lcStr "sync") = true →
        strContains (lcStr a.title) (lcStr "sync") = true) ∧
      (strContains (lcStr a.title) (lcStr "sync") =
          strContains (lcStr b.title) (lcStr "sync") →
        toTime a.start ≤ toTime b.start)) [syncEvent, lunchEvent] :=
  searchEvents_two_bucket_ranking spSearchSvc exSearchSvc
    [⟨"s1", "A", .sharePoint⟩] "sync" 50 [syncEvent, lunchEvent] (by decide)
